import Mathlib

set_option maxHeartbeats 1000000
set_option linter.unusedVariables false

/-!
Verification of the SeqTUI multi-format alignment parsing core.

The Rust source (src/model.rs, src/formats/) is shallowly embedded:
strings are lists of characters (the data handled by these parsers is
ASCII, so sequence bytes are modelled by the characters themselves),
fallible functions return Except, and stateful loops become explicit
recursion over an explicit state.
-/

namespace SeqTUI

/-- Shorthand turning a string literal into the character list the
embedding works on. -/
def cs (s : String) : List Char := s.data

/-- Rust char::is_whitespace restricted to the ASCII range (the only
characters these files contain): space, tab, line feed, vertical tab,
form feed, carriage return. -/
def is_whitespace (c : Char) : Bool :=
  c = ' ' || c = '\t' || c = '\n' || c = '\x0b' || c = '\x0c' || c = '\r'

/-- Rust u8::is_ascii_whitespace: space, tab, line feed, form feed,
carriage return. -/
def is_ascii_whitespace (c : Char) : Bool :=
  c = ' ' || c = '\t' || c = '\n' || c = '\x0c' || c = '\r'

/-- Rust str::trim on a character list. -/
def trim (l : List Char) : List Char :=
  ((l.dropWhile is_whitespace).reverse.dropWhile is_whitespace).reverse

/-- Rust str::split_whitespace: the maximal non-whitespace runs. -/
def split_whitespace (l : List Char) : List (List Char) :=
  (l.splitOnP is_whitespace).filter (fun p => !p.isEmpty)

/-- Strip one trailing carriage return, as Rust str::lines does on lines
that are terminated by a line feed. -/
def stripCr (l : List Char) : List Char :=
  if l.getLast? = some '\r' then l.dropLast else l

/-- Worker for rustLines: cur is the text of the current line read so
far. -/
def linesGo (cur : List Char) : List Char → List (List Char)
  | [] => if cur.isEmpty then [] else [cur]
  | c :: rest =>
    if c = '\n' then stripCr cur :: linesGo [] rest
    else linesGo (cur ++ [c]) rest

/-- Rust str::lines on a character list: pieces are split at line feeds,
a carriage return just before a line feed is dropped, and a final line
feed does not contribute an empty last line. -/
def rustLines (l : List Char) : List (List Char) :=
  linesGo [] l

/-- Rust struct Sequence (src/model.rs): an identifier plus its data
buffer. The statistically sampled type classification is not attached
here (it lives on Alignment in the source and is outside these claims). -/
structure Sequence where
  id : List Char
  data : List Char
deriving DecidableEq

/-- Rust Sequence::len — the length of the data buffer. -/
def Sequence.len (s : Sequence) : Nat := s.data.length

/-- Binary minimum on naturals (usize::min). -/
def minNat (a b : Nat) : Nat := if a ≤ b then a else b

/-- Binary maximum on naturals (usize::max). -/
def maxNat (a b : Nat) : Nat := if a ≤ b then b else a

/-- Rust Iterator::min on a list of naturals (none on the empty list). -/
def iterMin : List Nat → Option Nat
  | [] => none
  | x :: xs => some (xs.foldl minNat x)

/-- Rust Iterator::max on a list of naturals (none on the empty list). -/
def iterMax : List Nat → Option Nat
  | [] => none
  | x :: xs => some (xs.foldl maxNat x)

/-- The warning text built by Alignment::validate_alignment when the
sequence lengths differ. -/
def lengthWarning (min_len max_len : Nat) : String :=
  "Warning: Sequences have different lengths (min: " ++ toString min_len ++
    ", max: " ++ toString max_len ++ "). Not a valid alignment."

/-- Rust Alignment::validate_alignment (src/model.rs): returns the
validity flag, the cached alignment length and the optional warning. -/
def validate_alignment (sequences : List Sequence) : Bool × Option Nat × Option String :=
  match sequences with
  | [] => (true, none, none)
  | s0 :: _ =>
    let first_len := s0.len
    let all_same := sequences.all (fun s => s.len == first_len)
    if all_same then (true, some first_len, none)
    else
      let min_len := (iterMin (sequences.map Sequence.len)).getD 0
      let max_len := (iterMax (sequences.map Sequence.len)).getD 0
      (false, some max_len, some (lengthWarning min_len max_len))

/-- Rust struct Alignment (src/model.rs). The sequence_type field
(floating-point nucleotide-ratio sampling) is outside the scope of the
claims and is not modelled. -/
structure Alignment where
  sequences : List Sequence
  alignment_length_opt : Option Nat
  is_valid_alignment : Bool
  warning : Option String
deriving DecidableEq

/-- Rust Alignment::new — the constructor computing the derived fields. -/
def Alignment.new (sequences : List Sequence) : Alignment :=
  let v := validate_alignment sequences
  { sequences := sequences
    alignment_length_opt := v.2.1
    is_valid_alignment := v.1
    warning := v.2.2 }

/-- Rust Alignment::alignment_length — the cached length, 0 when absent. -/
def Alignment.alignment_length (a : Alignment) : Nat :=
  a.alignment_length_opt.getD 0

/-- Rust Alignment::sequence_count. -/
def Alignment.sequence_count (a : Alignment) : Nat := a.sequences.length

theorem minNat_le_left (a b : Nat) : minNat a b ≤ a := by
  simp only [minNat]
  split <;> omega

theorem minNat_le_right (a b : Nat) : minNat a b ≤ b := by
  simp only [minNat]
  split <;> omega

theorem left_le_maxNat (a b : Nat) : a ≤ maxNat a b := by
  simp only [maxNat]
  split <;> omega

theorem right_le_maxNat (a b : Nat) : b ≤ maxNat a b := by
  simp only [maxNat]
  split <;> omega

theorem foldl_min_le_init (xs : List Nat) (a : Nat) : xs.foldl minNat a ≤ a := by
  induction xs generalizing a with
  | nil => simp
  | cons x rest ih =>
    simp only [List.foldl_cons]
    exact le_trans (ih (minNat a x)) (minNat_le_left a x)

theorem foldl_min_le_mem (xs : List Nat) (a : Nat) :
    ∀ y ∈ xs, xs.foldl minNat a ≤ y := by
  induction xs generalizing a with
  | nil => simp
  | cons x rest ih =>
    intro y hy
    simp only [List.foldl_cons]
    rcases List.mem_cons.mp hy with h | h
    · rw [h]
      exact le_trans (foldl_min_le_init rest (minNat a x)) (minNat_le_right a x)
    · exact ih (minNat a x) y h

theorem foldl_min_mem (xs : List Nat) (a : Nat) :
    xs.foldl minNat a = a ∨ xs.foldl minNat a ∈ xs := by
  induction xs generalizing a with
  | nil => simp
  | cons x rest ih =>
    simp only [List.foldl_cons]
    rcases ih (minNat a x) with h | h
    · by_cases hax : a ≤ x
      · left
        rw [h]
        simp [minNat, hax]
      · right
        have hx : minNat a x = x := by
          simp only [minNat]
          split <;> omega
        rw [h, hx]
        exact List.mem_cons_self x rest
    · right
      exact List.mem_cons_of_mem x h

theorem foldl_max_init_le (xs : List Nat) (a : Nat) : a ≤ xs.foldl maxNat a := by
  induction xs generalizing a with
  | nil => simp
  | cons x rest ih =>
    simp only [List.foldl_cons]
    exact le_trans (left_le_maxNat a x) (ih (maxNat a x))

theorem foldl_max_mem_le (xs : List Nat) (a : Nat) :
    ∀ y ∈ xs, y ≤ xs.foldl maxNat a := by
  induction xs generalizing a with
  | nil => simp
  | cons x rest ih =>
    intro y hy
    simp only [List.foldl_cons]
    rcases List.mem_cons.mp hy with h | h
    · rw [h]
      exact le_trans (right_le_maxNat a x) (foldl_max_init_le rest (maxNat a x))
    · exact ih (maxNat a x) y h

theorem foldl_max_mem (xs : List Nat) (a : Nat) :
    xs.foldl maxNat a = a ∨ xs.foldl maxNat a ∈ xs := by
  induction xs generalizing a with
  | nil => simp
  | cons x rest ih =>
    simp only [List.foldl_cons]
    rcases ih (maxNat a x) with h | h
    · by_cases hax : a ≤ x
      · right
        have hx : maxNat a x = x := by
          simp [maxNat, hax]
        rw [h, hx]
        exact List.mem_cons_self x rest
      · left
        rw [h]
        have hx : maxNat a x = a := by
          simp only [maxNat]
          split <;> omega
        exact hx
    · right
      exact List.mem_cons_of_mem x h

theorem iterMin_spec (l : List Nat) (hne : l ≠ []) :
    (iterMin l).getD 0 ∈ l ∧ ∀ y ∈ l, (iterMin l).getD 0 ≤ y := by
  match l with
  | [] => exact absurd rfl hne
  | x :: xs =>
    simp only [iterMin, Option.getD_some]
    constructor
    · rcases foldl_min_mem xs x with h | h
      · rw [h]; exact List.mem_cons_self x xs
      · exact List.mem_cons_of_mem x h
    · intro y hy
      rcases List.mem_cons.mp hy with h | h
      · rw [h]; exact foldl_min_le_init xs x
      · exact foldl_min_le_mem xs x y h

theorem iterMax_spec (l : List Nat) (hne : l ≠ []) :
    (iterMax l).getD 0 ∈ l ∧ ∀ y ∈ l, y ≤ (iterMax l).getD 0 := by
  match l with
  | [] => exact absurd rfl hne
  | x :: xs =>
    simp only [iterMax, Option.getD_some]
    constructor
    · rcases foldl_max_mem xs x with h | h
      · rw [h]; exact List.mem_cons_self x xs
      · exact List.mem_cons_of_mem x h
    · intro y hy
      rcases List.mem_cons.mp hy with h | h
      · rw [h]; exact foldl_max_init_le xs x
      · exact foldl_max_mem_le xs x y h

theorem validate_eq_of_all (s0 : Sequence) (tl : List Sequence)
    (h : ∀ s ∈ s0 :: tl, s.len = s0.len) :
    validate_alignment (s0 :: tl) = (true, some s0.len, none) := by
  have hb : ((s0 :: tl).all (fun s => s.len == s0.len)) = true := by
    simp only [List.all_eq_true, beq_iff_eq]
    exact h
  simp [validate_alignment, hb]

theorem validate_eq_of_not_all (s0 : Sequence) (tl : List Sequence)
    (h : ¬ ∀ s ∈ s0 :: tl, s.len = s0.len) :
    validate_alignment (s0 :: tl) =
      (false, some ((iterMax ((s0 :: tl).map Sequence.len)).getD 0),
        some (lengthWarning ((iterMin ((s0 :: tl).map Sequence.len)).getD 0)
          ((iterMax ((s0 :: tl).map Sequence.len)).getD 0))) := by
  have hb : ((s0 :: tl).all (fun s => s.len == s0.len)) = false := by
    by_contra hb
    have hb2 : ((s0 :: tl).all (fun s => s.len == s0.len)) = true := by
      revert hb
      cases ((s0 :: tl).all (fun s => s.len == s0.len)) <;> simp
    apply h
    intro s hs
    have hs2 := List.all_eq_true.mp hb2 s hs
    simpa using hs2
  simp [validate_alignment, hb]

theorem new_is_valid (seqs : List Sequence) :
    (Alignment.new seqs).is_valid_alignment = (validate_alignment seqs).1 := rfl

theorem new_length_opt (seqs : List Sequence) :
    (Alignment.new seqs).alignment_length_opt = (validate_alignment seqs).2.1 := rfl

theorem new_warning (seqs : List Sequence) :
    (Alignment.new seqs).warning = (validate_alignment seqs).2.2 := rfl

/-- Claim C1: for every sequence list given to the Alignment constructor,
is_valid_alignment is true iff every sequence length equals every other
(vacuously for the empty list); when all sequences share one length L (and
the list is non-empty), alignment_length() returns L and the warning is
none; when lengths differ, is_valid_alignment is false, alignment_length()
returns the maximum sequence length, and the warning carries the true
minimum and maximum lengths; for the empty list alignment_length() is 0. -/
theorem alignment_validity_invariant (seqs : List Sequence) :
    ((Alignment.new seqs).is_valid_alignment = true ↔
      ∀ s1 ∈ seqs, ∀ s2 ∈ seqs, s1.len = s2.len) ∧
    (∀ L : Nat, seqs ≠ [] → (∀ s ∈ seqs, s.len = L) →
      (Alignment.new seqs).alignment_length = L ∧
      (Alignment.new seqs).warning = none) ∧
    ((∃ s1 ∈ seqs, ∃ s2 ∈ seqs, s1.len ≠ s2.len) →
      (Alignment.new seqs).is_valid_alignment = false ∧
      (∀ s ∈ seqs, s.len ≤ (Alignment.new seqs).alignment_length) ∧
      (∃ s ∈ seqs, s.len = (Alignment.new seqs).alignment_length) ∧
      ∃ m M : Nat, m ∈ seqs.map Sequence.len ∧
        (∀ l ∈ seqs.map Sequence.len, m ≤ l) ∧
        M ∈ seqs.map Sequence.len ∧
        (∀ l ∈ seqs.map Sequence.len, l ≤ M) ∧
        (Alignment.new seqs).warning = some (lengthWarning m M)) ∧
    (seqs = [] → (Alignment.new seqs).alignment_length = 0) := by
  match seqs with
  | [] =>
    refine ⟨?_, ?_, ?_, ?_⟩
    · simp [Alignment.new, validate_alignment]
    · intro L hne _
      exact absurd rfl hne
    · intro h
      simp at h
    · intro _
      simp [Alignment.alignment_length, Alignment.new, validate_alignment]
  | s0 :: tl =>
    by_cases hall : ∀ s ∈ s0 :: tl, s.len = s0.len
    · have hv := validate_eq_of_all s0 tl hall
      refine ⟨?_, ?_, ?_, ?_⟩
      · rw [new_is_valid, hv]
        simp only [true_iff]
        intro s1 hs1 s2 hs2
        rw [hall s1 hs1, hall s2 hs2]
      · intro L hne hL
        constructor
        · rw [Alignment.alignment_length, new_length_opt, hv]
          exact hL s0 (List.mem_cons_self s0 tl)
        · rw [new_warning, hv]
      · intro ⟨s1, hs1, s2, hs2, hne⟩
        exact absurd (by rw [hall s1 hs1, hall s2 hs2]) hne
      · intro h
        exact absurd h (List.cons_ne_nil s0 tl)
    · have hv := validate_eq_of_not_all s0 tl hall
      have hmapne : (s0 :: tl).map Sequence.len ≠ [] := by simp
      have hmin := iterMin_spec ((s0 :: tl).map Sequence.len) hmapne
      have hmax := iterMax_spec ((s0 :: tl).map Sequence.len) hmapne
      have hlen : (Alignment.new (s0 :: tl)).alignment_length =
          (iterMax ((s0 :: tl).map Sequence.len)).getD 0 := by
        rw [Alignment.alignment_length, new_length_opt, hv]
        rfl
      refine ⟨?_, ?_, ?_, ?_⟩
      · rw [new_is_valid, hv]
        constructor
        · intro hfalse
          simp at hfalse
        · intro hpair
          exfalso
          push_neg at hall
          obtain ⟨s, hs, hne⟩ := hall
          exact hne (hpair s hs s0 (List.mem_cons_self s0 tl))
      · intro L hne hL
        exact absurd (fun s hs => by rw [hL s hs, hL s0 (List.mem_cons_self s0 tl)]) hall
      · intro _
        refine ⟨by rw [new_is_valid, hv], ?_, ?_, ?_⟩
        · intro s hs
          rw [hlen]
          exact hmax.2 s.len (List.mem_map_of_mem Sequence.len hs)
        · rw [hlen]
          obtain ⟨s, hs, hlen2⟩ := List.mem_map.mp hmax.1
          exact ⟨s, hs, hlen2⟩
        · refine ⟨(iterMin ((s0 :: tl).map Sequence.len)).getD 0,
            (iterMax ((s0 :: tl).map Sequence.len)).getD 0,
            hmin.1, hmin.2, hmax.1, hmax.2, ?_⟩
          rw [new_warning, hv]
      · intro h
        exact absurd h (List.cons_ne_nil s0 tl)

theorem alignment_validity_invariant_witness :
    (Alignment.new [⟨cs "a", cs "AC"⟩, ⟨cs "b", cs "A"⟩]).is_valid_alignment = false :=
  ((alignment_validity_invariant [⟨cs "a", cs "AC"⟩, ⟨cs "b", cs "A"⟩]).2.2.1
    ⟨⟨cs "a", cs "AC"⟩, by decide, ⟨cs "b", cs "A"⟩, by decide, by decide⟩).1

/-- Rust enum FastaError (src/formats/fasta.rs). The IoError variant can
only arise from the file-reading wrappers and is not modelled in the pure
string parser. -/
inductive FastaError where
  | EmptyFile : FastaError
  | InvalidFormat : String → FastaError
  | SequenceWithoutHeader : Nat → FastaError
deriving DecidableEq

/-- The message formatted into FastaError::InvalidFormat when a header
carries an empty identifier. -/
def emptyIdMessage (line_number : Nat) : String :=
  "Empty sequence identifier at line " ++ toString line_number

/-- Loop state of parse_fasta_fast and parse_fasta (src/formats/fasta.rs). -/
structure FastaState where
  sequences : List Sequence
  current_id : Option (List Char)
  current_seq : List Char
  line_number : Nat
deriving DecidableEq

/-- The flush of the pending (current_id, current_seq) pair performed both
on reaching a new header and at end of input: the pending record is pushed
only when its accumulated data is non-empty. -/
def flushSeqs (st : FastaState) : List Sequence :=
  match st.current_id with
  | some id =>
    if st.current_seq.isEmpty then st.sequences
    else st.sequences ++ [⟨id, st.current_seq⟩]
  | none => st.sequences

/-- The body of the per-line loop, shared verbatim by parse_fasta_fast and
parse_fasta (their loop bodies are identical up to buffer-capacity
management, which has no observable effect). A line starting with the
marker character is a header (strip_prefix); any other non-blank line is
sequence data. -/
def fastaStep (st : FastaState) (line0 : List Char) : Except FastaError FastaState :=
  let line_number := st.line_number + 1
  let line := trim line0
  if line.isEmpty then
    .ok { st with line_number := line_number }
  else if line.headD ' ' = '>' then
    let header := line.tail
    let sequences := flushSeqs st
    let id := (split_whitespace header).headD header
    if id.isEmpty then .error (.InvalidFormat (emptyIdMessage line_number))
    else .ok ⟨sequences, some id, [], line_number⟩
  else
    match st.current_id with
    | none => .error (.SequenceWithoutHeader line_number)
    | some _ =>
      .ok { st with
            current_seq := st.current_seq ++ line.filter (fun c => !is_ascii_whitespace c),
            line_number := line_number }

/-- The per-line loop of the FASTA parsers over a list of lines. -/
def fastaGo (st : FastaState) : List (List Char) → Except FastaError FastaState
  | [] => .ok st
  | l :: rest =>
    match fastaStep st l with
    | .error e => .error e
    | .ok st2 => fastaGo st2 rest

/-- The final flush of the pending record and the emptiness check, shared
by both FASTA parsers. -/
def fastaFinish (st : FastaState) : Except FastaError Alignment :=
  let sequences := flushSeqs st
  if sequences.isEmpty then .error .EmptyFile
  else .ok (Alignment.new sequences)

/-- Rust parse_fasta_fast (src/formats/fasta.rs) on a whole content
string. -/
def parse_fasta_fast (content : List Char) : Except FastaError Alignment :=
  match fastaGo ⟨[], none, [], 0⟩ (rustLines content) with
  | .error e => .error e
  | .ok st => fastaFinish st

/-- Rust parse_fasta (src/formats/fasta.rs) on the line list produced by
its buffered reader (BufRead::lines yields the same line splitting as
str::lines). -/
def parse_fasta (ls : List (List Char)) : Except FastaError Alignment :=
  match fastaGo ⟨[], none, [], 0⟩ ls with
  | .error e => .error e
  | .ok st => fastaFinish st

deriving instance DecidableEq for Except

theorem mem_flushSeqs (st : FastaState) (s : Sequence) (hs : s ∈ flushSeqs st)
    (hinv : ∀ t ∈ st.sequences, t.data ≠ []) : s.data ≠ [] := by
  unfold flushSeqs at hs
  split at hs
  · split at hs
    · exact hinv s hs
    case isFalse hne =>
      rcases List.mem_append.mp hs with h | h
      · exact hinv s h
      · have hs2 := List.mem_singleton.mp h
        rw [hs2]
        intro hnil
        exact hne (by rw [show st.current_seq = ([] : List Char) from hnil]; rfl)
  · exact hinv s hs

theorem fastaStep_ok_sequences (st st2 : FastaState) (l : List Char)
    (h : fastaStep st l = .ok st2) :
    st2.sequences = st.sequences ∨ st2.sequences = flushSeqs st := by
  simp only [fastaStep] at h
  split at h
  · cases h
    exact Or.inl rfl
  · split at h
    · split at h
      · cases h
      · cases h
        exact Or.inr rfl
    · split at h
      · cases h
      · cases h
        exact Or.inl rfl

theorem fastaGo_data_ne_nil (ls : List (List Char)) (st st2 : FastaState)
    (h : fastaGo st ls = .ok st2) (hinv : ∀ s ∈ st.sequences, s.data ≠ []) :
    ∀ s ∈ st2.sequences, s.data ≠ [] := by
  induction ls generalizing st with
  | nil =>
    simp only [fastaGo] at h
    cases h
    exact hinv
  | cons l rest ih =>
    simp only [fastaGo] at h
    cases hstep : fastaStep st l with
    | error e =>
      rw [hstep] at h
      cases h
    | ok stm =>
      rw [hstep] at h
      refine ih stm h ?_
      rcases fastaStep_ok_sequences st stm l hstep with he | he
      · rw [he]
        exact hinv
      · rw [he]
        intro s hs
        exact mem_flushSeqs st s hs hinv

theorem fastaFinish_data_ne_nil (st : FastaState) (a : Alignment)
    (h : fastaFinish st = .ok a) (hinv : ∀ s ∈ st.sequences, s.data ≠ []) :
    ∀ s ∈ a.sequences, s.data ≠ [] := by
  simp only [fastaFinish] at h
  split at h
  · cases h
  · cases h
    intro s hs
    exact mem_flushSeqs st s hs hinv

/-- Claim C10: the FASTA parsers emit no record with empty sequence data —
every sequence of a successful parse has non-empty data; a header
immediately followed by another header is silently dropped; an input
consisting only of header lines yields EmptyFile. -/
theorem fasta_drops_empty_records :
    (∀ content a, parse_fasta_fast content = .ok a → ∀ s ∈ a.sequences, s.data ≠ []) ∧
    (∀ ls a, parse_fasta ls = .ok a → ∀ s ∈ a.sequences, s.data ≠ []) ∧
    parse_fasta_fast (cs ">a\n>b\nACGT\n") =
      .ok (Alignment.new [⟨cs "b", cs "ACGT"⟩]) ∧
    parse_fasta_fast (cs ">a\n>b\n") = .error .EmptyFile ∧
    parse_fasta [cs ">a", cs ">b"] = .error .EmptyFile := by
  refine ⟨?_, ?_, by decide, by decide, by decide⟩
  · intro content a h
    unfold parse_fasta_fast at h
    cases hgo : fastaGo ⟨[], none, [], 0⟩ (rustLines content) with
    | error e =>
      rw [hgo] at h
      cases h
    | ok st =>
      rw [hgo] at h
      exact fastaFinish_data_ne_nil st a h
        (fastaGo_data_ne_nil (rustLines content) _ st hgo (by simp))
  · intro ls a h
    unfold parse_fasta at h
    cases hgo : fastaGo ⟨[], none, [], 0⟩ ls with
    | error e =>
      rw [hgo] at h
      cases h
    | ok st =>
      rw [hgo] at h
      exact fastaFinish_data_ne_nil st a h
        (fastaGo_data_ne_nil ls _ st hgo (by simp))

theorem fasta_drops_empty_records_witness :
    (⟨cs "b", cs "ACGT"⟩ : Sequence).data ≠ [] :=
  fasta_drops_empty_records.1 (cs ">a\n>b\nACGT\n")
    (Alignment.new [⟨cs "b", cs "ACGT"⟩]) (by decide)
    ⟨cs "b", cs "ACGT"⟩ (by decide)

/-- Rust is_sequence_char (src/formats/phylip.rs): an ASCII letter, gap,
dot, star or question mark. -/
def is_sequence_char (c : Char) : Bool :=
  c.isAlpha || c = '-' || c = '.' || c = '*' || c = '?'

/-- A round-trip identifier as required by the claim: non-empty and free
of whitespace. -/
def goodId (idc : List Char) : Bool :=
  !idc.isEmpty && idc.all (fun c => !is_whitespace c)

/-- Round-trip sequence data as required by the claim: non-empty and all
valid sequence characters. -/
def goodData (d : List Char) : Bool :=
  !d.isEmpty && d.all is_sequence_char

/-- The FASTA text written by AppState::write_fasta (src/model.rs): for
each record one header line then the whole sequence on one line. -/
def fastaText (pairs : List (List Char × List Char)) : List Char :=
  (pairs.map (fun p => ('>' :: p.1) ++ ('\n' :: p.2) ++ ['\n'])).flatten

/-- The line list that fastaText denotes: alternating header and data
lines. -/
def pairsLines (pairs : List (List Char × List Char)) : List (List Char) :=
  (pairs.map (fun p => [('>' :: p.1), p.2])).flatten

/-- The state in which the FASTA line loop ends after consuming the lines
of the given pairs, starting with a pending (idc, data) record. -/
def fastaEnd (done : List Sequence) (idc data : List Char) (n : Nat) :
    List (List Char × List Char) → FastaState
  | [] => ⟨done, some idc, data, n⟩
  | p :: rest => fastaEnd (done ++ [⟨idc, data⟩]) p.1 p.2 (n + 2) rest

theorem seqchar_not_whitespace (c : Char) (h : is_sequence_char c = true) :
    is_whitespace c = false := by
  by_contra hw
  have hw2 : is_whitespace c = true := by
    revert hw
    cases is_whitespace c <;> simp
  simp only [is_whitespace, Bool.or_eq_true, decide_eq_true_eq] at hw2
  rcases hw2 with ((((rfl | rfl) | rfl) | rfl) | rfl) | rfl <;>
    exact absurd h (by decide)

theorem seqchar_not_ascii_whitespace (c : Char) (h : is_sequence_char c = true) :
    is_ascii_whitespace c = false := by
  by_contra hw
  have hw2 : is_ascii_whitespace c = true := by
    revert hw
    cases is_ascii_whitespace c <;> simp
  simp only [is_ascii_whitespace, Bool.or_eq_true, decide_eq_true_eq] at hw2
  rcases hw2 with (((rfl | rfl) | rfl) | rfl) | rfl <;>
    exact absurd h (by decide)

theorem seqchar_ne_gt (c : Char) (h : is_sequence_char c = true) : c ≠ '>' := by
  intro hc
  subst hc
  exact absurd h (by decide)

theorem not_ws_ne_nl (c : Char) (h : is_whitespace c = false) : c ≠ '\n' := by
  intro hc
  subst hc
  exact absurd h (by decide)

theorem not_ws_ne_cr (c : Char) (h : is_whitespace c = false) : c ≠ '\r' := by
  intro hc
  subst hc
  exact absurd h (by decide)

theorem getLast?_mem_of_eq (l : List Char) (c : Char) (h : l.getLast? = some c) :
    c ∈ l := by
  induction l with
  | nil => cases h
  | cons x rest ih =>
    cases rest with
    | nil =>
      simp only [List.getLast?_singleton, Option.some.injEq] at h
      simp [h]
    | cons y rest2 =>
      rw [List.getLast?_cons_cons] at h
      exact List.mem_cons_of_mem x (ih h)

theorem stripCr_eq_self (l : List Char) (h : ∀ c ∈ l, is_whitespace c = false) :
    stripCr l = l := by
  unfold stripCr
  rw [if_neg]
  intro heq
  exact not_ws_ne_cr '\r' (h '\r' (getLast?_mem_of_eq l '\r' heq)) rfl

theorem dropWhile_eq_self_of_none (p : Char → Bool) (l : List Char)
    (h : ∀ c ∈ l, p c = false) : l.dropWhile p = l := by
  cases l with
  | nil => rfl
  | cons c rest => simp [List.dropWhile_cons, h c (by simp)]

theorem trim_eq_self (l : List Char) (h : ∀ c ∈ l, is_whitespace c = false) :
    trim l = l := by
  unfold trim
  rw [dropWhile_eq_self_of_none _ l h]
  rw [dropWhile_eq_self_of_none _ l.reverse (fun c hc => h c (List.mem_reverse.mp hc))]
  exact List.reverse_reverse l

theorem split_whitespace_single (l : List Char) (hne : l ≠ [])
    (h : ∀ c ∈ l, is_whitespace c = false) : split_whitespace l = [l] := by
  unfold split_whitespace
  rw [List.splitOnP_eq_single]
  · simp [hne]
  · intro x hx
    simp [h x hx]

theorem filter_not_ws_eq_self (l : List Char)
    (h : ∀ c ∈ l, is_ascii_whitespace c = false) :
    l.filter (fun c => !is_ascii_whitespace c) = l := by
  induction l with
  | nil => rfl
  | cons c rest ih =>
    simp only [List.filter_cons, h c (by simp), Bool.not_false, if_true]
    rw [ih (fun c2 hc2 => h c2 (by simp [hc2]))]

theorem goodId_chars (idc : List Char) (h : goodId idc = true) :
    idc ≠ [] ∧ ∀ c ∈ idc, is_whitespace c = false := by
  simp only [goodId, Bool.and_eq_true, List.all_eq_true] at h
  obtain ⟨h1, h2⟩ := h
  constructor
  · intro hnil
    subst hnil
    simp at h1
  · intro c hc
    simpa using h2 c hc

theorem goodData_chars (d : List Char) (h : goodData d = true) :
    d ≠ [] ∧ ∀ c ∈ d, is_sequence_char c = true := by
  simp only [goodData, Bool.and_eq_true, List.all_eq_true] at h
  obtain ⟨h1, h2⟩ := h
  constructor
  · intro hnil
    subst hnil
    simp at h1
  · exact h2

theorem linesGo_cons (cur : List Char) (c : Char) (rest : List Char) :
    linesGo cur (c :: rest) =
      if c = '\n' then stripCr cur :: linesGo [] rest
      else linesGo (cur ++ [c]) rest := rfl

theorem linesGo_append_nl (l : List Char) (cur rest : List Char)
    (h : ∀ c ∈ l, is_whitespace c = false)
    (hcur : ∀ c ∈ cur, is_whitespace c = false) :
    linesGo cur (l ++ '\n' :: rest) = (cur ++ l) :: linesGo [] rest := by
  induction l generalizing cur with
  | nil =>
    rw [List.nil_append, linesGo_cons, if_pos rfl, stripCr_eq_self cur hcur]
    simp
  | cons c l2 ih =>
    have hc : c ≠ '\n' := not_ws_ne_nl c (h c (by simp))
    rw [List.cons_append, linesGo_cons, if_neg hc]
    rw [ih (cur ++ [c]) (fun d hd => h d (by simp [hd])) ?_]
    · simp
    · intro d hd
      rcases List.mem_append.mp hd with h1 | h1
      · exact hcur d h1
      · rw [List.mem_singleton.mp h1]
        exact h c (by simp)

theorem rustLines_fastaText (pairs : List (List Char × List Char))
    (hp : ∀ p ∈ pairs, goodId p.1 = true ∧ goodData p.2 = true) :
    rustLines (fastaText pairs) = pairsLines pairs := by
  unfold rustLines
  induction pairs with
  | nil => rfl
  | cons p rest ih =>
    obtain ⟨hid, hdata⟩ := hp p (by simp)
    obtain ⟨hidne, hidws⟩ := goodId_chars p.1 hid
    obtain ⟨hdne, hdchars⟩ := goodData_chars p.2 hdata
    have hdws : ∀ c ∈ p.2, is_whitespace c = false :=
      fun c hc => seqchar_not_whitespace c (hdchars c hc)
    have hhead : ∀ c ∈ ('>' :: p.1), is_whitespace c = false := by
      intro c hc
      rcases List.mem_cons.mp hc with h1 | h1
      · subst h1
        decide
      · exact hidws c h1
    have hshape : fastaText (p :: rest) =
        ('>' :: p.1) ++ '\n' :: (p.2 ++ '\n' :: fastaText rest) := by
      simp [fastaText, List.append_assoc]
    rw [hshape]
    rw [linesGo_append_nl ('>' :: p.1) [] _ hhead (by simp)]
    rw [linesGo_append_nl p.2 [] _ hdws (by simp)]
    rw [ih (fun q hq => hp q (by simp [hq]))]
    simp [pairsLines]

theorem flushSeqs_some (done : List Sequence) (idc data : List Char) (n : Nat)
    (hdata : data ≠ []) :
    flushSeqs ⟨done, some idc, data, n⟩ = done ++ [⟨idc, data⟩] := by
  simp [flushSeqs, hdata]

theorem fastaStep_header (st : FastaState) (idc : List Char)
    (hidne : idc ≠ []) (hidws : ∀ c ∈ idc, is_whitespace c = false) :
    fastaStep st ('>' :: idc) =
      .ok ⟨flushSeqs st, some idc, [], st.line_number + 1⟩ := by
  have htrim : trim ('>' :: idc) = '>' :: idc := by
    apply trim_eq_self
    intro c hc
    rcases List.mem_cons.mp hc with h1 | h1
    · subst h1
      decide
    · exact hidws c h1
  simp only [fastaStep, htrim]
  rw [if_neg (by simp)]
  rw [if_pos (by simp)]
  rw [show ('>' :: idc).tail = idc from rfl]
  rw [split_whitespace_single idc hidne hidws]
  rw [show (([idc] : List (List Char)).headD idc) = idc from rfl]
  rw [if_neg (by simp [hidne])]

theorem fastaStep_data (st : FastaState) (idc d : List Char)
    (hcur : st.current_id = some idc)
    (hdne : d ≠ []) (hdchars : ∀ c ∈ d, is_sequence_char c = true) :
    fastaStep st d =
      .ok { st with current_seq := st.current_seq ++ d,
                    line_number := st.line_number + 1 } := by
  have hdws : ∀ c ∈ d, is_whitespace c = false :=
    fun c hc => seqchar_not_whitespace c (hdchars c hc)
  have htrim : trim d = d := trim_eq_self d hdws
  have hhead : d.headD ' ' ≠ '>' := by
    cases d with
    | nil => exact absurd rfl hdne
    | cons c rest => simpa using seqchar_ne_gt c (hdchars c (by simp))
  simp only [fastaStep, htrim]
  rw [if_neg (by simp [hdne])]
  rw [if_neg hhead]
  rw [hcur]
  rw [filter_not_ws_eq_self d (fun c hc => seqchar_not_ascii_whitespace c (hdchars c hc))]

theorem fastaGo_pairsLines (pairs : List (List Char × List Char))
    (done : List Sequence) (idc data : List Char) (n : Nat)
    (hp : ∀ p ∈ pairs, goodId p.1 = true ∧ goodData p.2 = true)
    (hdata : data ≠ []) :
    fastaGo ⟨done, some idc, data, n⟩ (pairsLines pairs) =
      .ok (fastaEnd done idc data n pairs) := by
  induction pairs generalizing done idc data n with
  | nil => rfl
  | cons p rest ih =>
    obtain ⟨hid, hd⟩ := hp p (by simp)
    obtain ⟨hidne, hidws⟩ := goodId_chars p.1 hid
    obtain ⟨hdne, hdchars⟩ := goodData_chars p.2 hd
    have hlines : pairsLines (p :: rest) = ('>' :: p.1) :: p.2 :: pairsLines rest := by
      simp [pairsLines]
    rw [hlines]
    rw [show fastaGo ⟨done, some idc, data, n⟩ (('>' :: p.1) :: p.2 :: pairsLines rest) =
        match fastaStep ⟨done, some idc, data, n⟩ ('>' :: p.1) with
        | .error e => .error e
        | .ok st2 => fastaGo st2 (p.2 :: pairsLines rest) from rfl]
    rw [fastaStep_header ⟨done, some idc, data, n⟩ p.1 hidne hidws]
    rw [flushSeqs_some done idc data n hdata]
    show fastaGo ⟨done ++ [⟨idc, data⟩], some p.1, [], n + 1⟩ (p.2 :: pairsLines rest) = _
    rw [show fastaGo ⟨done ++ [(⟨idc, data⟩ : Sequence)], some p.1, [], n + 1⟩ (p.2 :: pairsLines rest) =
        match fastaStep ⟨done ++ [(⟨idc, data⟩ : Sequence)], some p.1, [], n + 1⟩ p.2 with
        | .error e => .error e
        | .ok st2 => fastaGo st2 (pairsLines rest) from rfl]
    rw [fastaStep_data ⟨done ++ [(⟨idc, data⟩ : Sequence)], some p.1, [], n + 1⟩ p.1 p.2 rfl hdne hdchars]
    show fastaGo ⟨done ++ [⟨idc, data⟩], some p.1, [] ++ p.2, n + 1 + 1⟩ (pairsLines rest) = _
    rw [List.nil_append]
    rw [ih (done ++ [(⟨idc, data⟩ : Sequence)]) p.1 p.2 (n + 1 + 1) (fun q hq => hp q (by simp [hq])) hdne]
    rfl

theorem flushSeqs_fastaEnd (pairs : List (List Char × List Char))
    (done : List Sequence) (idc data : List Char) (n : Nat)
    (hdata : data ≠ []) (hp : ∀ p ∈ pairs, p.2 ≠ []) :
    flushSeqs (fastaEnd done idc data n pairs) =
      done ++ ⟨idc, data⟩ :: pairs.map (fun p => ⟨p.1, p.2⟩) := by
  induction pairs generalizing done idc data n with
  | nil =>
    simpa [fastaEnd] using flushSeqs_some done idc data n hdata
  | cons p rest ih =>
    rw [show fastaEnd done idc data n (p :: rest) =
        fastaEnd (done ++ [⟨idc, data⟩]) p.1 p.2 (n + 2) rest from rfl]
    rw [ih (done ++ [(⟨idc, data⟩ : Sequence)]) p.1 p.2 (n + 2) (hp p (by simp))
      (fun q hq => hp q (by simp [hq]))]
    simp

/-- Claim C7 (amended): for every NON-EMPTY list of (id, data) pairs in
which each id is a non-empty whitespace-free token and each data is a
non-empty string of valid sequence characters, parsing the FASTA text
obtained by concatenating one header line and one data line per pair
yields exactly those sequences, with identical ids and data, in order. -/
theorem fasta_round_trip (pairs : List (List Char × List Char))
    (hne : pairs ≠ [])
    (hp : ∀ p ∈ pairs, goodId p.1 = true ∧ goodData p.2 = true) :
    parse_fasta_fast (fastaText pairs) =
      .ok (Alignment.new (pairs.map (fun p => ⟨p.1, p.2⟩))) ∧
    (Alignment.new (pairs.map (fun p => (⟨p.1, p.2⟩ : Sequence)))).sequences =
      pairs.map (fun p => ⟨p.1, p.2⟩) := by
  refine ⟨?_, rfl⟩
  match pairs, hne with
  | p :: rest, _ =>
    obtain ⟨hid, hd⟩ := hp p (by simp)
    obtain ⟨hidne, hidws⟩ := goodId_chars p.1 hid
    obtain ⟨hdne, hdchars⟩ := goodData_chars p.2 hd
    have hdatas : ∀ q ∈ rest, q.2 ≠ [] :=
      fun q hq => (goodData_chars q.2 (hp q (by simp [hq])).2).1
    unfold parse_fasta_fast
    rw [rustLines_fastaText (p :: rest) hp]
    rw [show pairsLines (p :: rest) = ('>' :: p.1) :: p.2 :: pairsLines rest from by
      simp [pairsLines]]
    rw [show fastaGo ⟨[], none, [], 0⟩ (('>' :: p.1) :: p.2 :: pairsLines rest) =
        match fastaStep ⟨[], none, [], 0⟩ ('>' :: p.1) with
        | .error e => .error e
        | .ok st2 => fastaGo st2 (p.2 :: pairsLines rest) from rfl]
    rw [fastaStep_header ⟨[], none, [], 0⟩ p.1 hidne hidws]
    show (match fastaGo ⟨[], some p.1, [], 1⟩ (p.2 :: pairsLines rest) with
      | .error e => (.error e : Except FastaError Alignment)
      | .ok st => fastaFinish st) = _
    rw [show fastaGo ⟨[], some p.1, [], 1⟩ (p.2 :: pairsLines rest) =
        match fastaStep ⟨[], some p.1, [], 1⟩ p.2 with
        | .error e => .error e
        | .ok st2 => fastaGo st2 (pairsLines rest) from rfl]
    rw [fastaStep_data ⟨[], some p.1, [], 1⟩ p.1 p.2 rfl hdne hdchars]
    show (match fastaGo ⟨[], some p.1, [] ++ p.2, 2⟩ (pairsLines rest) with
      | .error e => (.error e : Except FastaError Alignment)
      | .ok st => fastaFinish st) = _
    rw [List.nil_append]
    rw [fastaGo_pairsLines rest [] p.1 p.2 2 (fun q hq => hp q (by simp [hq])) hdne]
    show fastaFinish (fastaEnd [] p.1 p.2 2 rest) = _
    unfold fastaFinish
    rw [flushSeqs_fastaEnd rest [] p.1 p.2 2 hdne hdatas]
    rw [if_neg (by simp)]
    rfl

/-- Claim C7 counterexample: for the empty list of pairs (which satisfies
the per-element conditions vacuously) the serialized text is empty and
parsing returns the EmptyFile error instead of yielding zero sequences. -/
theorem fasta_round_trip_empty_input :
    fastaText [] = [] ∧ parse_fasta_fast (fastaText []) = .error .EmptyFile :=
  ⟨rfl, rfl⟩

theorem fasta_round_trip_witness :
    parse_fasta_fast (fastaText [(cs "id1", cs "ACGT")]) =
      .ok (Alignment.new [⟨cs "id1", cs "ACGT"⟩]) :=
  (fasta_round_trip [(cs "id1", cs "ACGT")] (by decide) (by decide)).1

/-- Rust enum PhylipError (src/formats/phylip.rs). -/
inductive PhylipError where
  | EmptyFile : PhylipError
  | InvalidHeader : List Char → PhylipError
  | InvalidSequenceCount : List Char → PhylipError
  | InvalidSequenceLength : List Char → PhylipError
  | SequenceCountMismatch : Nat → Nat → PhylipError
  | SequenceLengthMismatch : List Char → Nat → Nat → PhylipError
  | NoSequenceData : PhylipError
  | MissingInterleavedData : List Char → PhylipError
  | ParseError : Nat → List Char → PhylipError
deriving DecidableEq

/-- Rust str::parse::<usize>: an optional leading plus sign, then one or
more ASCII digits, rejecting values that overflow 64-bit usize. -/
def parse_usize (s : List Char) : Option Nat :=
  let digits := if s.headD ' ' = '+' then s.tail else s
  if !digits.isEmpty && digits.all (fun c => c.isDigit) then
    let v := digits.foldl (fun a c => a * 10 + (c.toNat - 48)) 0
    if v < 2 ^ 64 then some v else none
  else none

/-- The defensive catch-all of split_name_and_sequence: a pure-data
continuation line, else a bare name with no data. -/
def phylip_line_fallback (line : List Char) : Option (List Char) × List Char :=
  let seq := line.filter (fun c => !is_whitespace c)
  if seq ≠ [] ∧ seq.all is_sequence_char then (none, seq)
  else (some line, [])

/-- Rust split_name_and_sequence (src/formats/phylip.rs): strict
10-column split first, then relaxed whitespace split, then continuation
data, then the bare-name fallback. -/
def split_name_and_sequence (line0 : List Char) : Option (List Char) × List Char :=
  let line := trim line0
  if line.isEmpty then (none, [])
  else
    let strict :=
      if 10 ≤ line.length then
        let potential_name := line.take 10
        let potential_seq := line.drop 10
        let name_trimmed := trim potential_name
        let seq_chars := potential_seq.filter (fun c => !is_whitespace c)
        let name_words := split_whitespace name_trimmed
        if name_words.length = 1 ∧ name_trimmed ≠ [] ∧ seq_chars ≠ [] ∧
            seq_chars.all is_sequence_char then
          some ((some name_trimmed, seq_chars) : Option (List Char) × List Char)
        else none
      else none
    match strict with
    | some r => r
    | none =>
      let rest := line.dropWhile (fun c => !is_whitespace c)
      if rest.isEmpty then phylip_line_fallback line
      else
        let name := trim (line.takeWhile (fun c => !is_whitespace c))
        let seq := rest.filter (fun c => !is_whitespace c)
        if name ≠ [] ∧ seq ≠ [] ∧ seq.all is_sequence_char then (some name, seq)
        else phylip_line_fallback line

/-- Loop state of parse_phylip_data; done models the early break once all
sequences reach nchar. -/
structure PhylipState where
  sequences : List (List Char × List Char)
  in_interleaved_continuation : Bool
  interleaved_idx : Nat
  done : Bool
deriving DecidableEq

/-- Appending data to the sequence stored at one index. -/
def appendAt (seqs : List (List Char × List Char)) (i : Nat) (d : List Char) :
    List (List Char × List Char) :=
  match seqs.get? i with
  | some p => seqs.set i (p.1, p.2 ++ d)
  | none => seqs

/-- One line of the parse_phylip_data loop (src/formats/phylip.rs):
blank lines flip into continuation mode once ntax sequences exist; inside
a continuation block every line appends positionally; otherwise named
lines start or extend sequences and nameless lines extend the last one;
after each non-blank line the early-exit condition is checked. -/
def phylipStep (ntax nchar : Nat) (st : PhylipState) (line : List Char) : PhylipState :=
  if st.done then st
  else
    let trimmed := trim line
    if trimmed.isEmpty then
      if st.sequences.length = ntax then
        { st with in_interleaved_continuation := true, interleaved_idx := 0 }
      else st
    else
      let ns := split_name_and_sequence trimmed
      let st2 :=
        if st.in_interleaved_continuation then
          if st.interleaved_idx < st.sequences.length then
            { st with sequences := appendAt st.sequences st.interleaved_idx ns.2,
                      interleaved_idx := st.interleaved_idx + 1 }
          else st
        else
          match ns.1 with
          | some n =>
            if st.sequences.length < ntax then
              { st with sequences := st.sequences ++ [(n, ns.2)] }
            else
              match st.sequences.findIdx? (fun p => p.1 == n) with
              | some pos => { st with sequences := appendAt st.sequences pos ns.2 }
              | none => st
          | none =>
            if ns.2 ≠ [] then
              if st.sequences ≠ [] then
                { st with sequences :=
                    appendAt st.sequences (st.sequences.length - 1) ns.2 }
              else st
            else st
      if st2.sequences.length = ntax ∧ 0 < nchar ∧
          st2.sequences.all (fun p => nchar ≤ p.2.length) then
        { st2 with done := true }
      else st2

/-- Rust parse_phylip_data (src/formats/phylip.rs). -/
def parse_phylip_data (lines : List (List Char)) (ntax nchar : Nat) :
    Except PhylipError (List (List Char × List Char)) :=
  let final := lines.foldl (phylipStep ntax nchar) ⟨[], false, 0, false⟩
  if final.sequences.isEmpty then .error .NoSequenceData
  else .ok final.sequences

/-- The first non-blank line together with its index. -/
def firstNonBlank : List (List Char) → Nat → Option (Nat × List Char)
  | [], _ => none
  | l :: rest, i =>
    if (trim l).isEmpty then firstNonBlank rest (i + 1) else some (i, l)

/-- Rust parse_phylip_str (src/formats/phylip.rs). -/
def parse_phylip_str (content : List Char) : Except PhylipError Alignment :=
  let lines := rustLines content
  if lines.isEmpty then .error .EmptyFile
  else
    match firstNonBlank lines 0 with
    | none => .error .EmptyFile
    | some (header_idx, header0) =>
      let header := trim header0
      let parts := split_whitespace header
      match parts with
      | [] => .error (.InvalidHeader header)
      | [_] => .error (.InvalidHeader header)
      | p0 :: p1 :: _ =>
        match parse_usize p0 with
        | none => .error (.InvalidSequenceCount p0)
        | some ntax =>
          match parse_usize p1 with
          | none => .error (.InvalidSequenceLength p1)
          | some nchar =>
            if ntax = 0 then .error (.InvalidSequenceCount (cs "0"))
            else
              let data_lines := lines.drop (header_idx + 1)
              if data_lines.all (fun l => (trim l).isEmpty) then
                .error .NoSequenceData
              else
                match parse_phylip_data data_lines ntax nchar with
                | .error e => .error e
                | .ok seqs =>
                  .ok (Alignment.new (seqs.map (fun p => ⟨p.1, p.2⟩)))

/-- Claim C3 counterexample: in an interleaved continuation block (after
the blank line) the named line B GGGG is appended positionally to
sequence A, not to the sequence named B as the claim states; B instead
receives the later line A CCCC. -/
theorem phylip_named_continuation_goes_positional :
    parse_phylip_data [cs "A ACGT", cs "B TGCA", cs "", cs "B GGGG", cs "A CCCC"] 2 8 =
      .ok [(cs "A", cs "ACGTGGGG"), (cs "B", cs "TGCACCCC")] := by decide

/-- Claim C3 (amended): once a blank line has switched the PHYLIP loop
into an interleaved continuation block, every subsequent non-blank line —
named or nameless — appends its data part positionally, round-robin, to
the sequence at the current block index (a named line's name is ignored);
a named line repeating a known name appends to that specifically named
sequence only outside a continuation block, once ntax sequences exist. -/
theorem phylip_continuation_positional (ntax nchar : Nat) (st : PhylipState)
    (line : List Char) :
    (st.done = false → st.in_interleaved_continuation = true →
      trim line ≠ [] → st.interleaved_idx < st.sequences.length →
      (phylipStep ntax nchar st line).sequences =
        appendAt st.sequences st.interleaved_idx
          (split_name_and_sequence (trim line)).2) ∧
    (∀ n pos, st.done = false → st.in_interleaved_continuation = false →
      trim line ≠ [] →
      (split_name_and_sequence (trim line)).1 = some n →
      ¬ st.sequences.length < ntax →
      st.sequences.findIdx? (fun p => p.1 == n) = some pos →
      (phylipStep ntax nchar st line).sequences =
        appendAt st.sequences pos
          (split_name_and_sequence (trim line)).2) := by
  constructor
  · intro hdone hcont hne hidx
    simp only [phylipStep]
    rw [if_neg (show ¬(st.done = true) by simp [hdone])]
    rw [if_neg (show ¬((trim line).isEmpty = true) by
      simp only [List.isEmpty_iff]; exact hne)]
    rw [if_pos hcont]
    rw [if_pos hidx]
    split
    · rfl
    · rfl
  · intro n pos hdone hcont hne hsplit hlen hfind
    simp only [phylipStep]
    rw [if_neg (show ¬(st.done = true) by simp [hdone])]
    rw [if_neg (show ¬((trim line).isEmpty = true) by
      simp only [List.isEmpty_iff]; exact hne)]
    rw [if_neg (show ¬(st.in_interleaved_continuation = true) by simp [hcont])]
    rw [hsplit]
    dsimp only
    rw [if_neg hlen]
    rw [hfind]
    dsimp only
    split
    · rfl
    · rfl

theorem phylip_continuation_positional_witness :
    (phylipStep 2 8 ⟨[(cs "A", cs "ACGT"), (cs "B", cs "TGCA")], true, 0, false⟩
        (cs "B GGGG")).sequences =
      appendAt [(cs "A", cs "ACGT"), (cs "B", cs "TGCA")] 0
        (split_name_and_sequence (trim (cs "B GGGG"))).2 :=
  (phylip_continuation_positional 2 8
      ⟨[(cs "A", cs "ACGT"), (cs "B", cs "TGCA")], true, 0, false⟩ (cs "B GGGG")).1
    (by decide) (by decide) (by decide) (by decide)

/-- The three PhylipError variants that the claim says parsing never
produces. -/
def PhylipError.unraisedVariant : PhylipError → Bool
  | .SequenceCountMismatch _ _ => true
  | .SequenceLengthMismatch _ _ _ => true
  | .MissingInterleavedData _ => true
  | _ => false

theorem parse_phylip_data_error (lines : List (List Char)) (ntax nchar : Nat)
    (e : PhylipError) (h : parse_phylip_data lines ntax nchar = .error e) :
    e = .NoSequenceData := by
  simp only [parse_phylip_data] at h
  split at h
  · simp only [Except.error.injEq] at h
    exact h.symm
  · simp at h

/-- Claim C9: parse_phylip_str succeeds with the sequences actually found
even when fewer than the declared ntax are present, and never returns the
SequenceCountMismatch, SequenceLengthMismatch or MissingInterleavedData
variants (declared nchar is never checked against the data). -/
theorem phylip_no_count_checks :
    (∀ content e, parse_phylip_str content = .error e →
      e.unraisedVariant = false) ∧
    parse_phylip_str (cs " 3 10\nSeq1      ACGTACGTAC\nSeq2      TGCATGCATG\n") =
      .ok (Alignment.new
        [⟨cs "Seq1", cs "ACGTACGTAC"⟩, ⟨cs "Seq2", cs "TGCATGCATG"⟩]) := by
  refine ⟨?_, by decide⟩
  intro content e h
  simp only [parse_phylip_str] at h
  split at h
  · simp only [Except.error.injEq] at h
    subst h
    rfl
  · split at h
    · simp only [Except.error.injEq] at h
      subst h
      rfl
    · split at h
      · simp only [Except.error.injEq] at h
        subst h
        rfl
      · simp only [Except.error.injEq] at h
        subst h
        rfl
      · split at h
        · simp only [Except.error.injEq] at h
          subst h
          rfl
        · split at h
          · simp only [Except.error.injEq] at h
            subst h
            rfl
          · split at h
            · simp only [Except.error.injEq] at h
              subst h
              rfl
            · split at h
              · simp only [Except.error.injEq] at h
                subst h
                rfl
              · split at h
                case _ e2 heq =>
                  simp only [Except.error.injEq] at h
                  subst h
                  rw [parse_phylip_data_error _ _ _ e2 heq]
                  rfl
                case _ => simp at h

theorem phylip_no_count_checks_witness :
    PhylipError.unraisedVariant .EmptyFile = false :=
  phylip_no_count_checks.1 [] .EmptyFile (by decide)

/-- Rust enum NexusError (src/formats/nexus.rs). -/
inductive NexusError where
  | NotNexus : NexusError
  | EmptyFile : NexusError
  | NoDataBlock : NexusError
  | MissingDimensions : List Char → NexusError
  | MissingMatrix : List Char → NexusError
  | InvalidDimensions : List Char → NexusError
  | MissingNtax : NexusError
  | SequenceCountMismatch : Nat → Nat → NexusError
  | SequenceLengthMismatch : List Char → Nat → Nat → NexusError
  | UnterminatedMatrix : NexusError
  | DuplicateName : List Char → NexusError
  | ParseError : Nat → List Char → NexusError
deriving DecidableEq

/-- Per-character uppercasing (str::to_uppercase on ASCII input). -/
def upperL (l : List Char) : List Char := l.map Char.toUpper

/-- Substring containment (str::contains). -/
def containsSub (hay needle : List Char) : Bool :=
  match hay with
  | [] => needle.isEmpty
  | _ :: rest => needle.isPrefixOf hay || containsSub rest needle

/-- Index of the first occurrence of a substring (str::find). -/
def findSub (hay needle : List Char) : Option Nat :=
  match hay with
  | [] => if needle.isEmpty then some 0 else none
  | _ :: rest =>
    if needle.isPrefixOf hay then some 0
    else (findSub rest needle).map (fun i => i + 1)

/-- Index of the first character satisfying a predicate (str::find with a
character predicate). -/
def findCharIdx (l : List Char) (p : Char → Bool) : Option Nat :=
  match l with
  | [] => none
  | c :: rest => if p c then some 0 else (findCharIdx rest p).map (fun i => i + 1)

/-- Rust str::trim_end_matches applied to a semicolon: drop every
trailing semicolon. -/
def dropTrailingSemis (l : List Char) : List Char :=
  (l.reverse.dropWhile (fun c => c = ';')).reverse

/-- Rust extract_param (src/formats/nexus.rs): find the parameter name,
the following equals sign, and the value terminated by whitespace, a
semicolon or the end of the string. -/
def extract_param (line param : List Char) : Option (List Char) :=
  match findSub line param with
  | none => none
  | some idx =>
    let after := line.drop (idx + param.length)
    match findCharIdx after (fun c => c = '=') with
    | none => none
    | some eq_idx =>
      let after_eq := after.drop (eq_idx + 1)
      let endi := (findCharIdx after_eq (fun c => is_whitespace c || c = ';')).getD
        after_eq.length
      let value := trim (after_eq.take endi)
      if value.isEmpty then none else some value

/-- Worker for remove_nexus_comments. -/
def remove_comments_go (in_comment : Bool) : List Char → List Char
  | [] => []
  | c :: rest =>
    if c = '[' then remove_comments_go true rest
    else if c = ']' then remove_comments_go false rest
    else if in_comment then remove_comments_go in_comment rest
    else c :: remove_comments_go in_comment rest

/-- Rust remove_nexus_comments (src/formats/nexus.rs): drop bracketed
text. -/
def remove_nexus_comments (line : List Char) : List Char :=
  remove_comments_go false line

/-- State of normalize_nexus_commands (src/formats/nexus.rs). -/
structure NexusNormState where
  result : List Char
  current_command : List Char
  in_matrix : Bool

/-- One line of normalize_nexus_commands: outside MATRIX comments are
stripped and commands accumulate until a semicolon; inside MATRIX raw
lines are preserved (comments intact) until a comment-stripped line ends
in a semicolon. -/
def normalizeStep (st : NexusNormState) (line : List Char) : NexusNormState :=
  let trimmed := trim line
  if trimmed.isEmpty then
    if st.in_matrix then { st with result := st.result ++ ['\n'] }
    else st
  else if st.in_matrix then
    let line_no_comments := remove_nexus_comments trimmed
    if (trim line_no_comments).getLast? = some ';' then
      let clean := dropTrailingSemis (trim line_no_comments)
      if clean.isEmpty then { st with in_matrix := false }
      else { st with result := st.result ++ clean ++ ['\n'], in_matrix := false }
    else { st with result := st.result ++ trimmed ++ ['\n'] }
  else
    let line_no_comments := trim (remove_nexus_comments trimmed)
    if line_no_comments.isEmpty then st
    else
      let upper := upperL line_no_comments
      if (cs "MATRIX").isPrefixOf upper then
        let st2 :=
          if st.current_command.isEmpty then st
          else { st with result := st.result ++ st.current_command ++ ['\n'],
                         current_command := [] }
        { st2 with in_matrix := true,
                   result := st2.result ++ line_no_comments ++ ['\n'] }
      else
        let cc :=
          if st.current_command.isEmpty then line_no_comments
          else st.current_command ++ ' ' :: line_no_comments
        if line_no_comments.getLast? = some ';' then
          { st with result := st.result ++ cc ++ ['\n'], current_command := [] }
        else { st with current_command := cc }

/-- Rust normalize_nexus_commands (src/formats/nexus.rs). -/
def normalize_nexus_commands (content : List Char) : List Char :=
  let final := (rustLines content).foldl normalizeStep ⟨[], [], false⟩
  if final.current_command.isEmpty then final.result
  else final.result ++ final.current_command ++ ['\n']

/-- Worker for find_data_block: returns the final in_block flag and the
collected trimmed lines. -/
def find_data_block_go : List (List Char) → Bool → List (List Char) →
    Bool × List (List Char)
  | [], in_block, acc => (in_block, acc)
  | l :: rest, in_block, acc =>
    let trimmed := trim l
    let upper := upperL trimmed
    if in_block = false then
      if (cs "BEGIN").isPrefixOf upper ∧
          (containsSub upper (cs "DATA") ∨ containsSub upper (cs "CHARACTERS")) then
        find_data_block_go rest true acc
      else find_data_block_go rest false acc
    else if (cs "END").isPrefixOf upper ∨ (cs "ENDBLOCK").isPrefixOf upper then
      (true, acc)
    else find_data_block_go rest true (acc ++ [trimmed])

/-- Vec::join with a line feed. -/
def joinNl : List (List Char) → List Char
  | [] => []
  | [l] => l
  | l :: rest => l ++ '\n' :: joinNl rest

/-- Rust find_data_block (src/formats/nexus.rs). -/
def find_data_block (lines : List (List Char)) : Except NexusError (List Char) :=
  let r := find_data_block_go lines false []
  if r.2.isEmpty ∧ r.1 = false then .error .NoDataBlock
  else .ok (joinNl r.2)

/-- Worker for tokenize_matrix: cur is the token in progress; the three
flags are the comment and quote states. -/
def tokenize_go (cur : List Char) (in_comment in_single in_double : Bool) :
    List Char → List (List Char)
  | [] => if cur.isEmpty then [] else [cur]
  | c :: rest =>
    if in_comment = true then
      if c = ']' then tokenize_go cur false in_single in_double rest
      else tokenize_go cur true in_single in_double rest
    else if c = '[' ∧ in_single = false ∧ in_double = false then
      if cur.isEmpty then tokenize_go [] true in_single in_double rest
      else cur :: tokenize_go [] true in_single in_double rest
    else if c = '\'' ∧ in_double = false then
      tokenize_go (cur ++ [c]) in_comment (!in_single) in_double rest
    else if c = '"' ∧ in_single = false then
      tokenize_go (cur ++ [c]) in_comment in_single (!in_double) rest
    else if is_whitespace c ∧ in_single = false ∧ in_double = false then
      if cur.isEmpty then tokenize_go [] in_comment in_single in_double rest
      else cur :: tokenize_go [] in_comment in_single in_double rest
    else if c ≠ ';' then
      tokenize_go (cur ++ [c]) in_comment in_single in_double rest
    else tokenize_go cur in_comment in_single in_double rest

/-- Rust tokenize_matrix (src/formats/nexus.rs): split on whitespace
outside comments and quotes, never emit comment text, and drop
semicolons. -/
def tokenize_matrix (content : List Char) : List (List Char) :=
  tokenize_go [] false false false content

/-- Rust unquote (src/formats/nexus.rs): trim, then strip one pair of
matching single or double quotes. (On the one-character string consisting
of a single quote the Rust code would panic on its slice; the embedding
yields the empty string, a case no claim touches.) -/
def unquote (s0 : List Char) : List Char :=
  let s := trim s0
  if (s.headD ' ' = '\'' ∧ s.getLast? = some '\'') ∨
      (s.headD ' ' = '"' ∧ s.getLast? = some '"') then
    (s.drop 1).take (s.length - 2)
  else s

/-- Rust looks_like_name (src/formats/nexus.rs): quoted, or mixing
letters and digits, or containing an underscore. -/
def looks_like_name (token : List Char) : Bool :=
  if token.headD ' ' = '\'' || token.headD ' ' = '"' then true
  else
    let has_letters := token.any (fun c => c.isAlpha)
    let has_digits := token.any (fun c => c.isDigit)
    if has_letters && has_digits then true
    else if token.contains '_' then true
    else false

/-- The inner data-collection loop of parse_sequential_tokens_raw:
consume tokens into acc until nchar is reached, or (when nchar is
unknown) until a token looks like a name; returns the data and the
remaining tokens. -/
def collectSeqData : List (List Char) → Nat → List Char →
    List Char × List (List Char)
  | [], _, acc => (acc, [])
  | t :: rest, nchar, acc =>
    if 0 < nchar ∧ nchar ≤ acc.length then (acc, t :: rest)
    else if nchar = 0 ∧ acc ≠ [] ∧ looks_like_name t then (acc, t :: rest)
    else collectSeqData rest nchar (acc ++ t)

theorem collectSeqData_length (toks : List (List Char)) (nchar : Nat) (acc : List Char) :
    (collectSeqData toks nchar acc).2.length ≤ toks.length := by
  induction toks generalizing acc with
  | nil => simp [collectSeqData]
  | cons t rest ih =>
    simp only [collectSeqData]
    split
    · simp
    · split
      · simp
      · exact le_trans (ih (acc ++ t)) (Nat.le_succ rest.length)

/-- Rust parse_sequential_tokens_raw (src/formats/nexus.rs): repeatedly
take a name token and collect its data run, until ntax sequences exist or
the tokens run out. -/
def parse_sequential_go (tokens : List (List Char)) (ntax nchar : Nat)
    (seqs : List (List Char × List Char)) : List (List Char × List Char) :=
  match tokens with
  | [] => seqs
  | t :: rest =>
    if ntax ≠ 0 ∧ ¬seqs.length < ntax then seqs
    else
      let name := unquote t
      let r := collectSeqData rest nchar []
      parse_sequential_go r.2 ntax nchar (seqs ++ [(name, r.1)])
termination_by tokens.length
decreasing_by
  have hc := collectSeqData_length rest nchar []
  simp only [List.length_cons]
  omega

/-- Rust parse_sequential_tokens_raw entry point. -/
def parse_sequential_tokens_raw (tokens : List (List Char)) (ntax nchar : Nat) :
    List (List Char × List Char) :=
  parse_sequential_go tokens ntax nchar []

/-- Lookup in the name-to-index association list (HashMap::get; the map is
only ever extended with fresh keys, so first-match lookup is faithful). -/
def lookupName (m : List (List Char × Nat)) (k : List Char) : Option Nat :=
  match m with
  | [] => none
  | p :: rest => if p.1 = k then some p.2 else lookupName rest k

/-- Worker for parse_interleaved_tokens_raw (src/formats/nexus.rs): a
known name consumes the next token as its data; a new name (while fewer
than ntax exist) registers itself and consumes the next token; any other
token is appended, unquoted, to the sequence at index
(sequences.len() - 1) % ntax. -/
def parse_interleaved_go : List (List Char) → Nat → Nat →
    List (List Char × List Char) → List (List Char × Nat) →
    List (List Char × List Char)
  | [], _, _, seqs, _ => seqs
  | t :: rest, ntax, nchar, seqs, name_to_idx =>
    if 0 < nchar ∧ seqs.length = ntax ∧ seqs.all (fun p => nchar ≤ p.2.length) then
      seqs
    else
      let token := unquote t
      match lookupName name_to_idx token with
      | some idx =>
        match rest with
        | [] => seqs
        | d :: rest2 =>
          parse_interleaved_go rest2 ntax nchar (appendAt seqs idx d) name_to_idx
      | none =>
        if seqs.length < ntax then
          match rest with
          | [] => seqs ++ [(token, [])]
          | d :: rest2 =>
            parse_interleaved_go rest2 ntax nchar (seqs ++ [(token, d)])
              (name_to_idx ++ [(token, seqs.length)])
        else
          parse_interleaved_go rest ntax nchar
            (appendAt seqs ((seqs.length - 1) % ntax) token) name_to_idx

/-- Rust parse_interleaved_tokens_raw entry point. -/
def parse_interleaved_tokens_raw (tokens : List (List Char)) (ntax nchar : Nat) :
    List (List Char × List Char) :=
  parse_interleaved_go tokens ntax nchar [] []

/-- The indexed substitution loop of apply_matchchar_raw: at position i a
byte equal to the match character with i inside the reference is replaced
by the reference byte. -/
def matchcharSubstFrom (ref : List Char) (mc : Char) : Nat → List Char → List Char
  | _, [] => []
  | i, b :: bs =>
    (if b = mc ∧ i < ref.length then ref.getD i b else b) ::
      matchcharSubstFrom ref mc (i + 1) bs

/-- Rust apply_matchchar_raw (src/formats/nexus.rs): with at least two
sequences, rewrite sequences 2..N against the first sequence. -/
def apply_matchchar_raw (sequences : List (List Char × List Char)) (matchchar : Char) :
    List (List Char × List Char) :=
  if sequences.length < 2 then sequences
  else
    match sequences with
    | [] => sequences
    | first :: rest =>
      first :: rest.map (fun p => (p.1, matchcharSubstFrom first.2 matchchar 0 p.2))

/-- Rust parse_matrix (src/formats/nexus.rs). -/
def parse_matrix (content : List Char) (ntax nchar : Nat) (interleave : Bool)
    (matchchar : Option Char) : Except NexusError (List (List Char × List Char)) :=
  let tokens := tokenize_matrix content
  if tokens.isEmpty then .ok []
  else
    let raw :=
      if interleave = true ∧ 0 < ntax then parse_interleaved_tokens_raw tokens ntax nchar
      else parse_sequential_tokens_raw tokens ntax nchar
    let raw2 :=
      match matchchar with
      | some mc => apply_matchchar_raw raw mc
      | none => raw
    .ok raw2

/-- State of the command-interpretation loop of parse_data_block
(src/formats/nexus.rs). -/
structure NexusBlockState where
  ntax : Option Nat
  nchar : Option Nat
  interleave : Bool
  matchchar : Option Char
  matrix_content : List Char
  in_matrix : Bool

/-- One normalized line of parse_data_block: DIMENSIONS and FORMAT set
parameters, MATRIX content accumulates (separated by spaces) until a line
ends in a semicolon. -/
def blockStep (st : NexusBlockState) (line : List Char) : NexusBlockState :=
  let trimmed := trim line
  let upper := upperL trimmed
  if trimmed.isEmpty then st
  else if st.in_matrix = false ∧ trimmed.headD ' ' = '[' then st
  else if (cs "DIMENSIONS").isPrefixOf upper then
    let st1 :=
      match extract_param upper (cs "NTAX") with
      | some n => { st with ntax := parse_usize n }
      | none => st
    match extract_param upper (cs "NCHAR") with
    | some n => { st1 with nchar := parse_usize n }
    | none => st1
  else if (cs "FORMAT").isPrefixOf upper then
    let st1 := { st with interleave := containsSub upper (cs "INTERLEAVE") }
    match extract_param upper (cs "MATCHCHAR") with
    | some mc => { st1 with matchchar := mc.head? }
    | none => st1
  else if (cs "MATRIX").isPrefixOf upper ∨ st.in_matrix = true then
    let st1 := { st with in_matrix := true }
    let st2 :=
      if (cs "MATRIX").isPrefixOf upper then
        match findSub upper (cs "MATRIX") with
        | some idx =>
          let after := trim (trimmed.drop (idx + 6))
          if after ≠ [] ∧ after ≠ [';'] then
            { st1 with matrix_content :=
                st1.matrix_content ++ dropTrailingSemis after ++ [' '] }
          else st1
        | none => st1
      else
        let clean := dropTrailingSemis trimmed
        if clean ≠ [] then
          { st1 with matrix_content := st1.matrix_content ++ clean ++ [' '] }
        else st1
    if trimmed.getLast? = some ';' then { st2 with in_matrix := false } else st2
  else st

/-- Rust parse_data_block (src/formats/nexus.rs). -/
def parse_data_block (content : List Char) : Except NexusError Alignment :=
  let normalized := normalize_nexus_commands content
  let st := (rustLines normalized).foldl blockStep ⟨none, none, false, none, [], false⟩
  match parse_matrix st.matrix_content (st.ntax.getD 0) (st.nchar.getD 0)
      st.interleave st.matchchar with
  | .error e => .error e
  | .ok raw =>
    if raw.isEmpty then .error .NoDataBlock
    else .ok (Alignment.new (raw.map (fun p => ⟨p.1, p.2⟩)))

/-- Rust parse_nexus_str (src/formats/nexus.rs). -/
def parse_nexus_str (content : List Char) : Except NexusError Alignment :=
  let lines := rustLines content
  if lines.isEmpty then .error .EmptyFile
  else
    match lines.find? (fun l => !(trim l).isEmpty) with
    | none => .error .EmptyFile
    | some first_non_empty =>
      if (cs "#NEXUS").isPrefixOf (upperL (trim first_non_empty)) = false then
        .error .NotNexus
      else
        match find_data_block lines with
        | .error e => .error e
        | .ok block => parse_data_block block

/-- Claim C2 (the code at the failing input): with ntax = 2, after the
names a and b are registered, the two successive unknown data tokens Z
and W are BOTH appended to the sequence at index
(sequences.len() - 1) % ntax = 1 — the last sequence — rather than being
distributed round-robin over successive sequences as the claim (and the
code's own comment) states. -/
theorem interleaved_extra_tokens_go_to_last :
    parse_interleaved_tokens_raw [cs "a", cs "X", cs "b", cs "Y", cs "Z", cs "W"] 2 0 =
      [(cs "a", cs "X"), (cs "b", cs "YZW")] := by decide

/-- Claim C4 counterexample: the semicolon does not end tokenization —
the characters after the first semicolon of ab;cd (outside quotes and
comments) still contribute to the emitted token abcd. -/
theorem tokenize_does_not_stop_at_semicolon :
    tokenize_matrix (cs "ab;cd") = [cs "abcd"] := by decide

theorem no_semi_extend (cur : List Char) (c : Char) (hcur : ';' ∉ cur)
    (hc : c ≠ ';') : ';' ∉ cur ++ [c] := by
  intro hmem
  rcases List.mem_append.mp hmem with h | h
  · exact hcur h
  · exact hc (List.mem_singleton.mp h).symm

theorem tokenize_go_no_semi (l : List Char) (cur : List Char)
    (ic isq idq : Bool) (hcur : ';' ∉ cur) :
    ∀ tok ∈ tokenize_go cur ic isq idq l, ';' ∉ tok := by
  induction l generalizing cur ic isq idq with
  | nil =>
    intro tok htok
    simp only [tokenize_go] at htok
    split at htok
    · simp at htok
    · rw [List.mem_singleton.mp htok]
      exact hcur
  | cons c rest ih =>
    intro tok htok
    simp only [tokenize_go] at htok
    split at htok
    · split at htok
      · exact ih cur false isq idq hcur tok htok
      · exact ih cur true isq idq hcur tok htok
    · split at htok
      · split at htok
        · exact ih [] true isq idq (by simp) tok htok
        · rcases List.mem_cons.mp htok with h | h
          · rw [h]
            exact hcur
          · exact ih [] true isq idq (by simp) tok h
      · split at htok
        next hq =>
          refine ih (cur ++ [c]) ic (!isq) idq ?_ tok htok
          exact no_semi_extend cur c hcur (by rw [hq.1]; decide)
        · split at htok
          next hq =>
            refine ih (cur ++ [c]) ic isq (!idq) ?_ tok htok
            exact no_semi_extend cur c hcur (by rw [hq.1]; decide)
          · split at htok
            · split at htok
              · exact ih [] ic isq idq (by simp) tok htok
              · rcases List.mem_cons.mp htok with h | h
                · rw [h]
                  exact hcur
                · exact ih [] ic isq idq (by simp) tok h
            · split at htok
              next hc =>
                exact ih (cur ++ [c]) ic isq idq (no_semi_extend cur c hcur hc) tok htok
              · exact ih cur ic isq idq hcur tok htok

/-- Claim C4 (amended): a semicolon is never part of any emitted token —
every semicolon, inside or outside quotes, is simply dropped — but it
does not end tokenization: characters appearing after a semicolon still
contribute to tokens. -/
theorem tokenize_drops_semicolons (content : List Char) :
    ∀ tok ∈ tokenize_matrix content, ';' ∉ tok :=
  tokenize_go_no_semi content [] false false false (by simp)

theorem tokenize_drops_semicolons_witness : ';' ∉ cs "abcd" :=
  tokenize_drops_semicolons (cs "ab;cd") (cs "abcd") (by decide)

theorem matchcharSubstFrom_getElem (ref row : List Char) (mc : Char) (i0 j : Nat) :
    (matchcharSubstFrom ref mc i0 row)[j]? =
      (row[j]?).map
        (fun b => if b = mc ∧ i0 + j < ref.length then ref.getD (i0 + j) b else b) := by
  induction row generalizing i0 j with
  | nil => simp [matchcharSubstFrom]
  | cons b bs ih =>
    cases j with
    | zero => simp [matchcharSubstFrom]
    | succ j2 =>
      simp only [matchcharSubstFrom, List.getElem?_cons_succ]
      rw [ih (i0 + 1) j2]
      have harith : i0 + 1 + j2 = i0 + (j2 + 1) := by omega
      rw [harith]

/-- Claim C5: given a declared match character and at least two
sequences, apply_matchchar_raw never rewrites sequence 1 and rewrites
each later sequence position by position — a byte equal to the match
character at a position covered by the reference becomes the
corresponding reference byte, any other byte stays; in particular
reference ACGTACGTAC with row ....TG.... decodes to ACGTTGGTAC. -/
theorem matchchar_substitution (seqs : List (List Char × List Char)) (mc : Char)
    (h2 : 2 ≤ seqs.length) :
    ((apply_matchchar_raw seqs mc).head? = seqs.head? ∧
      (apply_matchchar_raw seqs mc).length = seqs.length ∧
      (∀ j p, seqs[j + 1]? = some p →
        (apply_matchchar_raw seqs mc)[j + 1]? =
          some (p.1, matchcharSubstFrom (seqs.headD ([], [])).2 mc 0 p.2))) ∧
    (∀ ref row i b, row[i]? = some b →
      (matchcharSubstFrom ref mc 0 row)[i]? =
        some (if b = mc ∧ i < ref.length then ref.getD i b else b)) ∧
    apply_matchchar_raw
        [(cs "seq1", cs "ACGTACGTAC"), (cs "seq2", cs "....TG....")] '.' =
      [(cs "seq1", cs "ACGTACGTAC"), (cs "seq2", cs "ACGTTGGTAC")] := by
  refine ⟨?_, ?_, by decide⟩
  · match seqs, h2 with
    | first :: s1 :: rest, _ =>
      have hnot : ¬((first :: s1 :: rest) : List (List Char × List Char)).length < 2 := by
        simp
      simp only [apply_matchchar_raw, if_neg hnot]
      refine ⟨rfl, by simp, ?_⟩
      intro j p hp
      simp only [List.getElem?_cons_succ] at hp ⊢
      rw [List.getElem?_map, hp]
      rfl
  · intro ref row i b hb
    rw [matchcharSubstFrom_getElem ref row mc 0 i, hb]
    simp

theorem matchchar_substitution_witness :
    (apply_matchchar_raw
        [(cs "seq1", cs "ACGTACGTAC"), (cs "seq2", cs "....TG....")] '.').head? =
      some (cs "seq1", cs "ACGTACGTAC") :=
  ((matchchar_substitution
      [(cs "seq1", cs "ACGTACGTAC"), (cs "seq2", cs "....TG....")] '.'
      (by decide)).1.1).trans (by decide)

/-- Rust enum FileFormat (src/formats/mod.rs). -/
inductive FileFormat where
  | Fasta : FileFormat
  | Phylip : FileFormat
  | Nexus : FileFormat
deriving DecidableEq

/-- The line loop of detect_format_from_content (src/formats/mod.rs):
skip blank lines, classify the first non-blank line, and return without
scanning further. -/
def detect_go : List (List Char) → Option FileFormat
  | [] => none
  | l :: rest =>
    let trimmed := trim l
    if trimmed.isEmpty then detect_go rest
    else if (cs "#NEXUS").isPrefixOf (upperL trimmed) then some .Nexus
    else if trimmed.headD ' ' = '>' then some .Fasta
    else
      match split_whitespace trimmed with
      | p0 :: p1 :: _ =>
        if (parse_usize p0).isSome ∧ (parse_usize p1).isSome then some .Phylip
        else none
      | _ => none

/-- Rust detect_format_from_content (src/formats/mod.rs). -/
def detect_format_from_content (content : List Char) : Option FileFormat :=
  detect_go (rustLines content)

/-- Classification of one line, written from the claim's wording, for the
refinement comparison with detect_format_from_content: NEXUS if it starts
with #NEXUS case-insensitively, else FASTA on a leading marker, else
PHYLIP when the first two whitespace tokens both parse as non-negative
integers, else none. -/
def classify_first_line_spec (l : List Char) : Option FileFormat :=
  let trimmed := trim l
  if (cs "#NEXUS").isPrefixOf (upperL trimmed) then some .Nexus
  else if trimmed.headD ' ' = '>' then some .Fasta
  else
    match split_whitespace trimmed with
    | p0 :: p1 :: _ =>
      if (parse_usize p0).isSome ∧ (parse_usize p1).isSome then some .Phylip
      else none
    | _ => none

/-- Skipping blank lines, the first non-blank one. -/
def findFirstNonBlank : List (List Char) → Option (List Char)
  | [] => none
  | l :: rest => if (trim l).isEmpty then findFirstNonBlank rest else some l

/-- The first non-blank line of the content, if any. -/
def firstNonBlankLine (content : List Char) : Option (List Char) :=
  findFirstNonBlank (rustLines content)

theorem detect_go_spec (ls : List (List Char)) :
    detect_go ls = (findFirstNonBlank ls).bind classify_first_line_spec := by
  induction ls with
  | nil => rfl
  | cons l rest ih =>
    simp only [detect_go, findFirstNonBlank]
    by_cases h : (trim l).isEmpty = true
    · rw [if_pos h, if_pos h]
      exact ih
    · rw [if_neg h, if_neg h]
      rfl

/-- Claim C6: detect_format_from_content decides using only the first
non-blank line, applying exactly the classification the claim lists —
NEXUS for a case-insensitive #NEXUS prefix, else FASTA for a leading
marker, else PHYLIP when the line's first two whitespace-separated tokens
both parse as non-negative integers, else none, never scanning further
lines. -/
theorem detect_uses_only_first_nonblank_line (content : List Char) :
    detect_format_from_content content =
      (firstNonBlankLine content).bind classify_first_line_spec :=
  detect_go_spec (rustLines content)

/-- Rust enum ParseError (src/formats/mod.rs). The IoError payload is a
std::io::Error, unreachable in the pure embedding, and is modelled as a
bare variant; AmbiguousFormat carries its two message fields. -/
inductive ParseError where
  | IoError : ParseError
  | EmptyFile : ParseError
  | UnknownFormat : ParseError
  | AmbiguousFormat : List Char → List Char → ParseError
  | FastaError : FastaError → ParseError
  | PhylipError : PhylipError → ParseError
  | NexusError : NexusError → ParseError
deriving DecidableEq

/-- Rust parse_content (src/formats/mod.rs). -/
def parse_content (content : List Char) (format : FileFormat) :
    Except ParseError Alignment :=
  match format with
  | .Fasta =>
    match parse_fasta_fast content with
    | .ok a => .ok a
    | .error e => .error (.FastaError e)
  | .Phylip =>
    match parse_phylip_str content with
    | .ok a => .ok a
    | .error e => .error (.PhylipError e)
  | .Nexus =>
    match parse_nexus_str content with
    | .ok a => .ok a
    | .error e => .error (.NexusError e)

/-- Rust try_parse_formats (src/formats/mod.rs), with the running
last_error made explicit. -/
def try_parse_formats (content : List Char) (formats : List FileFormat)
    (last_error : Option ParseError) : Except ParseError (Alignment × FileFormat) :=
  match formats with
  | [] =>
    match last_error with
    | some e => .error e
    | none => .error .UnknownFormat
  | f :: rest =>
    match parse_content content f with
    | .ok a => .ok (a, f)
    | .error e => try_parse_formats content rest (some e)

/-- Rust parse_file_with_options (src/formats/mod.rs) on content already
read into memory: the extension-derived format (a pure function of the
path in the source) enters as extFmt, and empty content models the
zero-size EmptyFile check. -/
def parse_file_with_options_pure (extFmt forced : Option FileFormat)
    (content : List Char) : Except ParseError Alignment :=
  if content.isEmpty then .error .EmptyFile
  else
    match forced with
    | some format => parse_content content format
    | none =>
      let rest34 :=
        match detect_format_from_content content with
        | some format => parse_content content format
        | none =>
          match try_parse_formats content [.Fasta, .Nexus, .Phylip] none with
          | .ok (a, _) => .ok a
          | .error _ => .error .UnknownFormat
      match extFmt with
      | some format =>
        match parse_content content format with
        | .ok a => .ok a
        | .error _ => rest34
      | none => rest34

/-- Claim C8: with no forced format, when content-based detection names a
format whose parser fails, the dispatcher returns that parser's error
immediately, with no exhaustive-trial fallback — both when no
extension-derived format exists and when the extension-derived parser
failed and fell through to content detection. -/
theorem dispatcher_content_error_is_final (extFmt : Option FileFormat)
    (content : List Char) (fmt : FileFormat) (e : ParseError)
    (hne : content ≠ [])
    (hext : extFmt = none ∨
      ∃ f e2, extFmt = some f ∧ parse_content content f = .error e2)
    (hdet : detect_format_from_content content = some fmt)
    (hfail : parse_content content fmt = .error e) :
    parse_file_with_options_pure extFmt none content = .error e := by
  simp only [parse_file_with_options_pure]
  rw [if_neg (show ¬(content.isEmpty = true) by
    simp only [List.isEmpty_iff]; exact hne)]
  rw [hdet]
  dsimp only
  rw [hfail]
  rcases hext with he | ⟨f, e2, he, hf⟩
  · rw [he]
  · rw [he]
    dsimp only
    rw [hf]

theorem dispatcher_content_error_is_final_witness :
    parse_file_with_options_pure (some .Phylip) none (cs ">x") =
      .error (.FastaError .EmptyFile) :=
  dispatcher_content_error_is_final (some .Phylip) (cs ">x") .Fasta
    (.FastaError .EmptyFile) (by decide)
    (Or.inr ⟨.Phylip, .PhylipError (.InvalidHeader (cs ">x")), rfl, by decide⟩)
    (by decide) (by decide)

end SeqTUI
